import Mathlib

/-!
Shallow embedding of the EFFE EventHub core (`src/event-hub.ts`):
the `Channel` class (subscriber registry with replay and synchronous
fan-out) and the `EventHub` class (lazy channel map with a pre-created
wildcard channel).  State is passed explicitly; callback invocations are
recorded as a trace of `Invocation` records; callbacks themselves are
inert tokens (`Nat`), since the claims only speak about which registered
callback is invoked, in what order, and with what envelope.
-/

namespace EFFE

/-- JavaScript payload values carried through the hub.  The payload type
`TData` of the source is instantiated with a concrete value universe so
that the JS truthiness test `if (replay && lastEvent)` in
`Channel.subscribe` is expressible. -/
inductive Val where
  | vBool (b : Bool)
  | vNum (n : Int)
  | vStr (s : String)
deriving DecidableEq, Repr

/-- JS truthiness of a payload value: `false`, `0` and `""` are falsy. -/
def Val.truthy : Val → Bool
  | .vBool b => b
  | .vNum n => n != 0
  | .vStr s => s != ""

/-- The `EventMessage<T>` envelope: originating channel name plus payload. -/
structure EventMessage where
  channel : String
  data : Val
deriving DecidableEq, Repr

/-- One recorded callback invocation: the subscription id under which the
callback was registered, the callback token, and the envelope it received. -/
structure Invocation where
  id : Nat
  cb : Nat
  msg : EventMessage
deriving DecidableEq, Repr

/-- The reserved wildcard channel name (`WildCardChannel` in the source). -/
def WildCardChannel : String := "*"

/-! ### Model of `Record<number, EventCallback>` (the `_callbacks` object)

A JS object whose keys are integer-like strings enumerates its properties
in ascending numeric order, independently of insertion order, so the
record is modelled as an association list kept sorted by key:
assignment is sorted insertion (replacing an equal key), `delete` removes
the key, and `Object.values` is `map Prod.snd` over the list. -/

/-- Property assignment `obj[k] = v` on an integer-keyed JS object,
keeping the ascending key enumeration order. -/
def natInsert (k : Nat) (v : Nat) : List (Nat × Nat) → List (Nat × Nat)
  | [] => [(k, v)]
  | (k', v') :: rest =>
    if k < k' then (k, v) :: (k', v') :: rest
    else if k = k' then (k, v) :: rest
    else (k', v') :: natInsert k v rest

/-- Property deletion `delete obj[k]` on an integer-keyed JS object. -/
def natDelete (k : Nat) : List (Nat × Nat) → List (Nat × Nat)
  | [] => []
  | (k', v') :: rest => if k' = k then natDelete k rest else (k', v') :: natDelete k rest

/-- Property read `obj[k]` on an integer-keyed JS object. -/
def natLookup (k : Nat) : List (Nat × Nat) → Option Nat
  | [] => none
  | (k', v') :: rest => if k' = k then some v' else natLookup k rest

/-! ### The `Channel` class -/

/-- State of one `Channel<TData>` instance: the `_name`, `_lastEvent`,
`_lastId` and `_callbacks` fields of the source class. -/
structure Channel where
  name : String
  lastEvent : Option Val := none
  lastId : Nat := 0
  callbacks : List (Nat × Nat) := []
deriving DecidableEq, Repr

/-- The `Channel` constructor: `new Channel(name)`. -/
def Channel.new (name : String) : Channel := { name := name }

/-- The private `getNextId()` method: `return ++this._lastId` — returns the
incremented counter together with the updated state. -/
def Channel.getNextId (st : Channel) : Nat × Channel :=
  (st.lastId + 1, { st with lastId := st.lastId + 1 })

/-- Result of `Channel.subscribe`: the `Subscription.id` returned, the
channel state after the call, and the replay invocations (empty or a
single invocation) performed synchronously during the call. -/
structure SubResult where
  subId : Nat
  state : Channel
  replayed : List Invocation
deriving DecidableEq, Repr

/-- The `subscribe(callback, replay = false)` method: assigns the next id,
stores the callback, and, when `replay` is true and the captured
`_lastEvent` is truthy (the JS test `if (replay && lastEvent)`), invokes
the callback once with the envelope `{channel: this.name, data: lastEvent}`
before returning. -/
def Channel.subscribe (st : Channel) (cb : Nat) (replay : Bool := false) : SubResult :=
  let p := st.getNextId
  let id := p.1
  let st1 := p.2
  let lastEvent := st.lastEvent
  let st2 := { st1 with callbacks := natInsert id cb st1.callbacks }
  let replayed :=
    match lastEvent with
    | some v => if replay && v.truthy then [⟨id, cb, ⟨st.name, v⟩⟩] else []
    | none => []
  ⟨id, st2, replayed⟩

/-- The `unsubscribe` closure returned by `subscribe`, bound to an id:
`delete this._callbacks[id]`. -/
def Channel.unsubscribe (st : Channel) (id : Nat) : Channel :=
  { st with callbacks := natDelete id st.callbacks }

/-- Result of `Channel.publish`: the updated state and the trace of
callback invocations performed synchronously. -/
structure PubResult where
  state : Channel
  trace : List Invocation
deriving DecidableEq, Repr

/-- The `publish(data)` method: sets `_lastEvent = data`, then invokes
every registered callback, in the object's ascending-id enumeration
order, with the envelope `{channel: this.name, data}`. -/
def Channel.publish (st : Channel) (data : Val) : PubResult :=
  let st1 := { st with lastEvent := some data }
  ⟨st1, st1.callbacks.map (fun p => ⟨p.1, p.2, ⟨st.name, data⟩⟩)⟩

/-- Result of `Channel.publish` when callbacks may throw: updated state,
the invocations that actually ran, and whether an exception escaped. -/
structure PubExcResult where
  state : Channel
  trace : List Invocation
  threw : Bool
deriving DecidableEq, Repr

/-- Fan-out loop of `publish` (`Object.values(...).forEach(cb => cb(...))`)
when callbacks may throw: `thr` tells which callback tokens throw; the
loop stops at the first throwing callback and the exception escapes. -/
def fanOutExc (thr : Nat → Bool) (name : String) (data : Val) :
    List (Nat × Nat) → List Invocation × Bool
  | [] => ([], false)
  | p :: rest =>
    if thr p.2 then ([⟨p.1, p.2, ⟨name, data⟩⟩], true)
    else
      let r := fanOutExc thr name data rest
      (⟨p.1, p.2, ⟨name, data⟩⟩ :: r.1, r.2)

/-- The `publish(data)` method with possibly-throwing callbacks:
`_lastEvent` is assigned before the fan-out loop, so it is updated even
when a callback throws and aborts the remaining delivery. -/
def Channel.publishExc (thr : Nat → Bool) (st : Channel) (data : Val) : PubExcResult :=
  let st1 := { st with lastEvent := some data }
  let r := fanOutExc thr st.name data st1.callbacks
  ⟨st1, r.1, r.2⟩

/-! ### Operation sequences on one channel -/

/-- One public operation on a single channel. -/
inductive ChOp where
  | sub (cb : Nat) (replay : Bool)
  | unsub (id : Nat)
  | pub (v : Val)
deriving DecidableEq, Repr

/-- Apply one operation to a channel state, returning the new state and
the invocations it performed. -/
def chStep (st : Channel) : ChOp → Channel × List Invocation
  | .sub cb r => let s := st.subscribe cb r; (s.state, s.replayed)
  | .unsub id => (st.unsubscribe id, [])
  | .pub v => let r := st.publish v; (r.state, r.trace)

/-- Run a sequence of operations on a channel, accumulating the trace. -/
def runCh (st : Channel) : List ChOp → Channel × List Invocation
  | [] => (st, [])
  | op :: rest =>
    let s1 := chStep st op
    let s2 := runCh s1.1 rest
    (s2.1, s1.2 ++ s2.2)

/-- The payloads published by a sequence of operations, in order. -/
def pubsOf (ops : List ChOp) : List Val :=
  ops.filterMap (fun op => match op with | .pub v => some v | _ => none)

/-- The number of subscribe operations in a sequence. -/
def subCount (ops : List ChOp) : Nat :=
  (ops.filter (fun op => match op with | .sub _ _ => true | _ => false)).length

/-- The payload of the most recent publish in a sequence of operations,
or `none` when the sequence publishes nothing. -/
def lastPub : List ChOp → Option Val
  | [] => none
  | op :: rest =>
    match lastPub rest with
    | some w => some w
    | none => match op with | .pub v => some v | _ => none

/-- Strictly ascending check on a list of keys. -/
def chainLt : List Nat → Bool
  | [] => true
  | [_] => true
  | a :: b :: rest => decide (a < b) && chainLt (b :: rest)

/-- Well-formedness of a channel state: callback keys enumerate in
strictly ascending order, and every key is positive and at most
`_lastId`.  Every state reachable from `Channel.new` satisfies this. -/
def Channel.wf (st : Channel) : Bool :=
  chainLt (st.callbacks.map Prod.fst) &&
    st.callbacks.all (fun p => decide (1 ≤ p.1) && decide (p.1 ≤ st.lastId))

/-! ### The `EventHub` class

The `_channels : Record<string, Channel>` object has string keys, which a
JS object enumerates in insertion order, so it is modelled as an
association list where assignment updates an existing key in place and
appends a new one. -/

/-- Property read `obj[k]` on the string-keyed channel record. -/
def chLookup (k : String) : List (String × Channel) → Option Channel
  | [] => none
  | (k', v') :: rest => if k' = k then some v' else chLookup k rest

/-- Property assignment `obj[k] = v` on the string-keyed channel record,
preserving JS insertion-order enumeration. -/
def chSet (k : String) (v : Channel) : List (String × Channel) → List (String × Channel)
  | [] => [(k, v)]
  | (k', v') :: rest => if k' = k then (k, v) :: rest else (k', v') :: chSet k v rest

/-- State of an `EventHub` instance: the `_channels` record. -/
structure EventHub where
  channels : List (String × Channel)
deriving DecidableEq, Repr

/-- The `EventHub` constructor: pre-inserts the wildcard channel under
the reserved name `*`. -/
def EventHub.new : EventHub :=
  ⟨[(WildCardChannel, Channel.new WildCardChannel)]⟩

/-- The lazy-creation idiom shared by `subscribe`, `publish` and
`lastEvent`: `if (!this._channels[channel]) this._channels[channel] =
new Channel(channel)` followed by the read `this._channels[channel]`.
Returns the (now surely present) channel and the updated record. -/
def getOrCreate (m : List (String × Channel)) (k : String) :
    Channel × List (String × Channel) :=
  match chLookup k m with
  | some c => (c, m)
  | none => (Channel.new k, chSet k (Channel.new k) m)

/-- Result of `EventHub.subscribe`: the returned `Subscription.id`, the
hub state after the call and the replay invocations. -/
structure HubSubResult where
  subId : Nat
  hub : EventHub
  replayed : List Invocation
deriving DecidableEq, Repr

/-- The Hub's `subscribe(channel, callback, replay = false)`: creates the
channel when absent, then delegates to `Channel.subscribe`. -/
def EventHub.subscribe (hub : EventHub) (channel : String) (cb : Nat)
    (replay : Bool := false) : HubSubResult :=
  let g := getOrCreate hub.channels channel
  let s := g.1.subscribe cb replay
  ⟨s.subId, ⟨chSet channel s.state g.2⟩, s.replayed⟩

/-- Result of `EventHub.publish`: the hub state after the call and the
trace of all invocations, named-channel ones first. -/
structure HubPubResult where
  hub : EventHub
  trace : List Invocation
deriving DecidableEq, Repr

/-- The Hub's `publish(channel, data)`: creates the named channel when
absent and calls its `publish`, then calls the wildcard channel's
`publish` twice in a row (the source repeats the statement
`this._channels[WildCardChannel].publish(data)` on two consecutive
lines).  The two wildcard reads are plain `this._channels[WildCardChannel]`
accesses with no lazy creation, so a hub whose record lacks the `*` key
would throw; that failure is modelled as `none`. -/
def EventHub.publish (hub : EventHub) (channel : String) (data : Val) :
    Option HubPubResult :=
  let g := getOrCreate hub.channels channel
  let r1 := g.1.publish data
  let m1 := chSet channel r1.state g.2
  match chLookup WildCardChannel m1 with
  | none => none
  | some w =>
    let r2 := w.publish data
    let m2 := chSet WildCardChannel r2.state m1
    match chLookup WildCardChannel m2 with
    | none => none
    | some w' =>
      let r3 := w'.publish data
      some ⟨⟨chSet WildCardChannel r3.state m2⟩, r1.trace ++ (r2.trace ++ r3.trace)⟩

/-- The Hub's `lastEvent(channel)`: creates the channel when absent (an
observable side effect of this read), then returns its retained value
together with the updated hub state. -/
def EventHub.last (hub : EventHub) (channel : String) : Option Val × EventHub :=
  let g := getOrCreate hub.channels channel
  (g.1.lastEvent, ⟨g.2⟩)

/-- An `unsubscribe()` call on a handle previously returned by the Hub:
the closure deletes the id from its channel's callback record; the hub's
channel map itself is untouched.  When the named channel does not exist
(no handle for it can exist either) nothing happens. -/
def EventHub.unsub (hub : EventHub) (channel : String) (id : Nat) : EventHub :=
  match chLookup channel hub.channels with
  | some ch => ⟨chSet channel (ch.unsubscribe id) hub.channels⟩
  | none => hub

/-! ### Operation sequences on a hub -/

/-- One public operation on the hub. -/
inductive HubOp where
  | sub (channel : String) (cb : Nat) (replay : Bool)
  | unsub (channel : String) (id : Nat)
  | pub (channel : String) (v : Val)
  | last (channel : String)
deriving DecidableEq, Repr

/-- The channel name an operation addresses. -/
def HubOp.channel : HubOp → String
  | .sub c _ _ => c
  | .unsub c _ => c
  | .pub c _ => c
  | .last c => c

/-- Whether an operation goes through the lazy-creation idiom
(`subscribe`, `publish` and `lastEvent` do; `unsubscribe` does not). -/
def HubOp.creates : HubOp → Bool
  | .unsub _ _ => false
  | _ => true

/-- Apply one operation to a hub state; `none` models a thrown
`TypeError` (possible only when the wildcard key is absent). -/
def hubStep (hub : EventHub) : HubOp → Option (EventHub × List Invocation)
  | .sub c cb r => let s := hub.subscribe c cb r; some (s.hub, s.replayed)
  | .unsub c id => some (hub.unsub c id, [])
  | .pub c v =>
    match hub.publish c v with
    | some r => some (r.hub, r.trace)
    | none => none
  | .last c => some ((hub.last c).2, [])

/-- Run a sequence of hub operations, accumulating the trace. -/
def runHub (hub : EventHub) : List HubOp → Option (EventHub × List Invocation)
  | [] => some (hub, [])
  | op :: rest =>
    match hubStep hub op with
    | none => none
    | some s1 =>
      match runHub s1.1 rest with
      | none => none
      | some s2 => some (s2.1, s1.2 ++ s2.2)

/-- No-duplicate check on the channel record's keys. -/
def nodupKeys : List String → Bool
  | [] => true
  | k :: rest => rest.all (fun k' => k' ≠ k) && nodupKeys rest

/-- Well-formedness of a hub state: the wildcard key is present, keys are
unique, and each stored channel is well-formed with its `_name` equal to
its key.  Every state reachable from `EventHub.new` satisfies this. -/
def EventHub.wf (hub : EventHub) : Bool :=
  (chLookup WildCardChannel hub.channels).isSome &&
    nodupKeys (hub.channels.map Prod.fst) &&
    hub.channels.all (fun p => p.2.name = p.1 && p.2.wf)

example : (Channel.new "test").lastEvent = none := rfl
example : ((Channel.new "test").subscribe 7).subId = 1 := rfl
example :
    (((Channel.new "t").publish (Val.vBool true)).state.subscribe 7 true).replayed =
      [⟨1, 7, ⟨"t", Val.vBool true⟩⟩] := rfl
example :
    (((Channel.new "t").publish (Val.vBool false)).state.subscribe 7 true).replayed = [] := rfl

example : EventHub.new.wf = true := by decide

/-! ## Lemmas: the integer-keyed callback record -/

theorem natDelete_sublist (k : Nat) : ∀ l : List (Nat × Nat), (natDelete k l).Sublist l
  | [] => List.Sublist.refl _
  | (k', v') :: rest => by
    rw [natDelete]
    by_cases h : k' = k
    · rw [if_pos h]
      exact (natDelete_sublist k rest).cons _
    · rw [if_neg h]
      exact (natDelete_sublist k rest).cons₂ _

theorem natDelete_idem (k : Nat) : ∀ l : List (Nat × Nat),
    natDelete k (natDelete k l) = natDelete k l
  | [] => rfl
  | (k', v') :: rest => by
    rw [natDelete]
    by_cases h : k' = k
    · rw [if_pos h, natDelete_idem k rest]
    · rw [if_neg h, natDelete, if_neg h, natDelete_idem k rest]

theorem natLookup_natDelete_self (k : Nat) : ∀ l : List (Nat × Nat),
    natLookup k (natDelete k l) = none
  | [] => rfl
  | (k', v') :: rest => by
    rw [natDelete]
    by_cases h : k' = k
    · rw [if_pos h]
      exact natLookup_natDelete_self k rest
    · rw [if_neg h, natLookup, if_neg h]
      exact natLookup_natDelete_self k rest

theorem natLookup_natDelete_ne (k j : Nat) (h : j ≠ k) : ∀ l : List (Nat × Nat),
    natLookup j (natDelete k l) = natLookup j l
  | [] => rfl
  | (k', v') :: rest => by
    rw [natDelete]
    by_cases hp : k' = k
    · rw [if_pos hp, natLookup, if_neg (by omega), natLookup_natDelete_ne k j h rest]
    · rw [if_neg hp, natLookup, natLookup]
      by_cases hj : k' = j
      · rw [if_pos hj, if_pos hj]
      · rw [if_neg hj, if_neg hj, natLookup_natDelete_ne k j h rest]

theorem natInsert_of_gt (k v : Nat) :
    ∀ l : List (Nat × Nat), (∀ p ∈ l, p.1 < k) → natInsert k v l = l ++ [(k, v)]
  | [], _ => rfl
  | (k', v') :: rest, h => by
    have hk : k' < k := h (k', v') (by simp)
    simp only [natInsert]
    rw [if_neg (by omega), if_neg (by omega),
      natInsert_of_gt k v rest (fun p hp => h p (by simp [hp]))]
    simp

/-! ## Lemmas: the ascending-key check -/

theorem chainLt_iff_chain : ∀ l : List Nat, chainLt l = true ↔ List.Chain' (· < ·) l
  | [] => by simp [chainLt]
  | [_] => by simp [chainLt]
  | a :: b :: rest => by
    rw [List.chain'_cons]
    simp [chainLt, chainLt_iff_chain (b :: rest)]

theorem chainLt_iff_pairwise (l : List Nat) :
    chainLt l = true ↔ List.Pairwise (· < ·) l := by
  rw [chainLt_iff_chain, List.chain'_iff_pairwise]

/-! ## Lemmas: channel operations preserve well-formedness -/

theorem Channel.new_wf (name : String) : (Channel.new name).wf = true := rfl

theorem Channel.subscribe_subId (st : Channel) (cb : Nat) (r : Bool) :
    (st.subscribe cb r).subId = st.lastId + 1 := rfl

theorem Channel.subscribe_state_name (st : Channel) (cb : Nat) (r : Bool) :
    (st.subscribe cb r).state.name = st.name := rfl

theorem Channel.subscribe_state_callbacks (st : Channel) (cb : Nat) (r : Bool)
    (h : ∀ p ∈ st.callbacks, p.1 ≤ st.lastId) :
    (st.subscribe cb r).state.callbacks = st.callbacks ++ [(st.lastId + 1, cb)] := by
  show natInsert (st.lastId + 1) cb st.callbacks = _
  exact natInsert_of_gt _ _ _ (fun p hp => Nat.lt_succ_of_le (h p hp))

theorem Channel.wf_spell (st : Channel) :
    st.wf = true ↔
      List.Pairwise (· < ·) (st.callbacks.map Prod.fst) ∧
        ∀ p ∈ st.callbacks, 1 ≤ p.1 ∧ p.1 ≤ st.lastId := by
  unfold Channel.wf
  rw [Bool.and_eq_true, chainLt_iff_pairwise, List.all_eq_true]
  constructor
  · rintro ⟨h1, h2⟩
    refine ⟨h1, fun p hp => ?_⟩
    have := h2 p hp
    simp only [Bool.and_eq_true, decide_eq_true_eq] at this
    exact this
  · rintro ⟨h1, h2⟩
    refine ⟨h1, fun p hp => ?_⟩
    simp only [Bool.and_eq_true, decide_eq_true_eq]
    exact h2 p hp

theorem Channel.subscribe_wf (st : Channel) (cb : Nat) (r : Bool) (h : st.wf = true) :
    (st.subscribe cb r).state.wf = true := by
  rw [Channel.wf_spell] at h ⊢
  obtain ⟨h1, h2⟩ := h
  have hcb : (st.subscribe cb r).state.callbacks = st.callbacks ++ [(st.lastId + 1, cb)] :=
    Channel.subscribe_state_callbacks st cb r (fun p hp => (h2 p hp).2)
  have hid : (st.subscribe cb r).state.lastId = st.lastId + 1 := rfl
  rw [hcb, hid]
  constructor
  · rw [List.map_append, List.pairwise_append]
    refine ⟨h1, by simp, ?_⟩
    intro x hx y hy
    simp only [List.map_cons, List.map_nil, List.mem_singleton] at hy
    subst hy
    obtain ⟨p, hp, rfl⟩ := List.mem_map.1 hx
    exact Nat.lt_succ_of_le (h2 p hp).2
  · intro p hp
    rcases List.mem_append.1 hp with hp | hp
    · exact ⟨(h2 p hp).1, Nat.le_succ_of_le (h2 p hp).2⟩
    · simp only [List.mem_singleton] at hp
      subst hp
      exact ⟨by omega, le_refl _⟩

theorem Channel.unsubscribe_wf (st : Channel) (id : Nat) (h : st.wf = true) :
    (st.unsubscribe id).wf = true := by
  rw [Channel.wf_spell] at h ⊢
  obtain ⟨h1, h2⟩ := h
  constructor
  · exact h1.sublist ((natDelete_sublist id st.callbacks).map Prod.fst)
  · intro p hp
    exact h2 p ((natDelete_sublist id st.callbacks).subset hp)

theorem Channel.publish_wf (st : Channel) (v : Val) (h : st.wf = true) :
    (st.publish v).state.wf = true := h

theorem chStep_wf (st : Channel) (op : ChOp) (h : st.wf = true) :
    (chStep st op).1.wf = true := by
  cases op with
  | sub cb r => exact Channel.subscribe_wf st cb r h
  | unsub id => exact Channel.unsubscribe_wf st id h
  | pub v => exact Channel.publish_wf st v h

theorem runCh_wf (st : Channel) (ops : List ChOp) (h : st.wf = true) :
    (runCh st ops).1.wf = true := by
  induction ops generalizing st with
  | nil => exact h
  | cons op rest ih => exact ih _ (chStep_wf st op h)

/-! ## Lemmas: state evolution along an operation sequence -/

theorem chStep_name (st : Channel) (op : ChOp) : (chStep st op).1.name = st.name := by
  cases op <;> rfl

theorem runCh_name (st : Channel) (ops : List ChOp) : (runCh st ops).1.name = st.name := by
  induction ops generalizing st with
  | nil => rfl
  | cons op rest ih => rw [runCh, ih, chStep_name]

theorem runCh_lastId (st : Channel) (ops : List ChOp) :
    (runCh st ops).1.lastId = st.lastId + subCount ops := by
  induction ops generalizing st with
  | nil => rfl
  | cons op rest ih =>
    show (runCh (chStep st op).1 rest).1.lastId = _
    rw [ih]
    cases op with
    | sub cb r =>
      show (st.subscribe cb r).state.lastId + subCount rest = _
      have : (st.subscribe cb r).state.lastId = st.lastId + 1 := rfl
      rw [this]
      simp [subCount, List.filter_cons]
      omega
    | unsub id =>
      simp [chStep, Channel.unsubscribe, subCount, List.filter_cons]
    | pub v =>
      simp [chStep, Channel.publish, subCount, List.filter_cons]

theorem chStep_lastEvent (st : Channel) (op : ChOp) :
    (chStep st op).1.lastEvent =
      match op with | .pub v => some v | _ => st.lastEvent := by
  cases op <;> rfl

theorem runCh_lastEvent (st : Channel) (ops : List ChOp) :
    (runCh st ops).1.lastEvent =
      match lastPub ops with | some w => some w | none => st.lastEvent := by
  induction ops generalizing st with
  | nil => rfl
  | cons op rest ih =>
    show (runCh (chStep st op).1 rest).1.lastEvent = _
    rw [ih]
    simp only [lastPub]
    cases hrest : lastPub rest with
    | some w => rfl
    | none => cases op <;> simp [chStep_lastEvent]

/-! ## Lemmas: the string-keyed channel record -/

theorem chLookup_chSet_self (k : String) (v : Channel) :
    ∀ m, chLookup k (chSet k v m) = some v
  | [] => by rw [chSet, chLookup, if_pos rfl]
  | (k', v') :: rest => by
    rw [chSet]
    by_cases h : k' = k
    · rw [if_pos h, chLookup, if_pos rfl]
    · rw [if_neg h, chLookup, if_neg h, chLookup_chSet_self k v rest]

theorem chLookup_chSet_ne (k j : String) (v : Channel) (h : j ≠ k) :
    ∀ m, chLookup j (chSet k v m) = chLookup j m
  | [] => by
    simp only [chSet, chLookup]
    rw [if_neg (fun hk => h hk.symm)]
  | (k', v') :: rest => by
    rw [chSet]
    by_cases hk : k' = k
    · rw [if_pos hk, chLookup, chLookup, hk, if_neg (fun hj => h hj.symm),
        if_neg (fun hj => h hj.symm)]
    · rw [if_neg hk, chLookup, chLookup]
      by_cases hj : k' = j
      · rw [if_pos hj, if_pos hj]
      · rw [if_neg hj, if_neg hj, chLookup_chSet_ne k j v h rest]

theorem chLookup_chSet_isSome (k j : String) (v : Channel) (m : List (String × Channel))
    (h : (chLookup j m).isSome = true) : (chLookup j (chSet k v m)).isSome = true := by
  by_cases hj : j = k
  · subst hj
    rw [chLookup_chSet_self]
    rfl
  · rw [chLookup_chSet_ne k j v hj]
    exact h

theorem chSet_keys_of_isSome (k : String) (v : Channel) :
    ∀ m, (chLookup k m).isSome = true →
      (chSet k v m).map Prod.fst = m.map Prod.fst
  | [], h => by rw [chLookup] at h; exact absurd h (by simp)
  | (k', v') :: rest, h => by
    rw [chSet]
    by_cases hk : k' = k
    · rw [if_pos hk, List.map_cons, List.map_cons, hk]
    · rw [if_neg hk, List.map_cons, List.map_cons]
      rw [chLookup, if_neg hk] at h
      rw [chSet_keys_of_isSome k v rest h]

theorem chSet_keys_of_none (k : String) (v : Channel) :
    ∀ m, chLookup k m = none →
      (chSet k v m).map Prod.fst = m.map Prod.fst ++ [k]
  | [], _ => rfl
  | (k', v') :: rest, h => by
    rw [chLookup] at h
    by_cases hk : k' = k
    · rw [if_pos hk] at h
      exact absurd h (by simp)
    · rw [if_neg hk] at h
      rw [chSet, if_neg hk, List.map_cons, List.map_cons, List.cons_append,
        chSet_keys_of_none k v rest h]

theorem chLookup_eq_none_iff (k : String) :
    ∀ m : List (String × Channel), chLookup k m = none ↔ k ∉ m.map Prod.fst
  | [] => by simp [chLookup]
  | (k', v') :: rest => by
    rw [chLookup, List.map_cons]
    by_cases hk : k' = k
    · rw [if_pos hk]
      simp [hk]
    · rw [if_neg hk]
      rw [chLookup_eq_none_iff k rest]
      simp [Ne.symm hk]

theorem chLookup_mem (k : String) (c : Channel) :
    ∀ m, chLookup k m = some c → (k, c) ∈ m
  | [], h => by rw [chLookup] at h; exact absurd h (by simp)
  | (k', v') :: rest, h => by
    rw [chLookup] at h
    by_cases hk : k' = k
    · rw [if_pos hk] at h
      injection h with h
      subst hk h
      exact List.mem_cons_self _ _
    · rw [if_neg hk] at h
      exact List.mem_cons_of_mem _ (chLookup_mem k c rest h)

theorem chSet_all (P : String × Channel → Prop) (k : String) (v : Channel) :
    ∀ m, (∀ p ∈ m, P p) → P (k, v) → ∀ p ∈ chSet k v m, P p
  | [], _, hv => by
    rw [chSet]
    intro p hp
    rw [List.mem_singleton] at hp
    exact hp ▸ hv
  | (k', v') :: rest, hm, hv => by
    rw [chSet]
    by_cases hk : k' = k
    · rw [if_pos hk]
      intro p hp
      rcases List.mem_cons.1 hp with rfl | hp
      · exact hv
      · exact hm p (List.mem_cons_of_mem _ hp)
    · rw [if_neg hk]
      intro p hp
      rcases List.mem_cons.1 hp with rfl | hp
      · exact hm _ (List.mem_cons_self _ _)
      · exact chSet_all P k v rest (fun q hq => hm q (List.mem_cons_of_mem _ hq)) hv p hp

theorem nodupKeys_iff_nodup : ∀ ks : List String, nodupKeys ks = true ↔ ks.Nodup
  | [] => by simp [nodupKeys]
  | k :: rest => by
    rw [nodupKeys, Bool.and_eq_true, List.all_eq_true, nodupKeys_iff_nodup rest,
      List.nodup_cons]
    constructor
    · rintro ⟨h1, h2⟩
      refine ⟨fun hk => ?_, h2⟩
      have := h1 k hk
      simp at this
    · rintro ⟨h1, h2⟩
      refine ⟨fun x hx => ?_, h2⟩
      simp only [decide_eq_true_eq]
      intro hxk
      exact h1 (hxk ▸ hx)

/-! ## Lemmas: hub well-formedness and lazy creation -/

theorem EventHub.wf_iff (hub : EventHub) :
    hub.wf = true ↔
      (chLookup WildCardChannel hub.channels).isSome = true ∧
        (hub.channels.map Prod.fst).Nodup ∧
        ∀ p ∈ hub.channels, p.2.name = p.1 ∧ p.2.wf = true := by
  unfold EventHub.wf
  simp only [Bool.and_eq_true, List.all_eq_true, nodupKeys_iff_nodup, decide_eq_true_eq,
    and_assoc]

theorem getOrCreate_fst_of_entries (m : List (String × Channel)) (k : String)
    (h : ∀ p ∈ m, p.2.name = p.1 ∧ p.2.wf = true) :
    (getOrCreate m k).1.name = k ∧ (getOrCreate m k).1.wf = true := by
  unfold getOrCreate
  cases hl : chLookup k m with
  | none => exact ⟨rfl, rfl⟩
  | some c => exact h (k, c) (chLookup_mem k c m hl)

theorem getOrCreate_keys (m : List (String × Channel)) (k : String) :
    (getOrCreate m k).2.map Prod.fst =
      if (chLookup k m).isSome = true then m.map Prod.fst
      else m.map Prod.fst ++ [k] := by
  unfold getOrCreate
  cases hl : chLookup k m with
  | none => simp [chSet_keys_of_none k _ m hl]
  | some c => simp

theorem getOrCreate_isSome (m : List (String × Channel)) (k j : String)
    (h : (chLookup j m).isSome = true) :
    (chLookup j (getOrCreate m k).2).isSome = true := by
  unfold getOrCreate
  cases hl : chLookup k m with
  | none => exact chLookup_chSet_isSome k j _ m h
  | some c => exact h

theorem chLookup_getOrCreate_self (m : List (String × Channel)) (k : String) :
    chLookup k (getOrCreate m k).2 = some (getOrCreate m k).1 := by
  unfold getOrCreate
  cases hl : chLookup k m with
  | none => exact chLookup_chSet_self k _ m
  | some c => exact hl

theorem getOrCreate_all (P : String × Channel → Prop) (m : List (String × Channel))
    (k : String) (hm : ∀ p ∈ m, P p) (hnew : P (k, Channel.new k)) :
    ∀ p ∈ (getOrCreate m k).2, P p := by
  unfold getOrCreate
  cases hl : chLookup k m with
  | none => exact chSet_all P k _ m hm hnew
  | some c => exact hm

theorem getOrCreate_keys_nodup (m : List (String × Channel)) (k : String)
    (h : (m.map Prod.fst).Nodup) : ((getOrCreate m k).2.map Prod.fst).Nodup := by
  unfold getOrCreate
  cases hl : chLookup k m with
  | none =>
    rw [chSet_keys_of_none k _ m hl]
    have hk : k ∉ m.map Prod.fst := (chLookup_eq_none_iff k m).1 hl
    simp [List.nodup_append, h, hk]
  | some c => exact h

theorem Channel.publish_state_name (st : Channel) (v : Val) :
    (st.publish v).state.name = st.name := rfl

theorem Channel.unsubscribe_name (st : Channel) (id : Nat) :
    (st.unsubscribe id).name = st.name := rfl

theorem hubPublish_eq (hub : EventHub) (c : String) (v : Val) (w w' : Channel)
    (h1 : chLookup WildCardChannel
        (chSet c ((getOrCreate hub.channels c).1.publish v).state
          (getOrCreate hub.channels c).2) = some w)
    (h2 : chLookup WildCardChannel
        (chSet WildCardChannel (w.publish v).state
          (chSet c ((getOrCreate hub.channels c).1.publish v).state
            (getOrCreate hub.channels c).2)) = some w') :
    hub.publish c v = some
      ⟨⟨chSet WildCardChannel (w'.publish v).state
          (chSet WildCardChannel (w.publish v).state
            (chSet c ((getOrCreate hub.channels c).1.publish v).state
              (getOrCreate hub.channels c).2))⟩,
        ((getOrCreate hub.channels c).1.publish v).trace ++
          ((w.publish v).trace ++ (w'.publish v).trace)⟩ := by
  simp only [EventHub.publish]
  rw [h1]
  dsimp only
  rw [h2]

theorem hubStep_keys_wf (hub : EventHub) (op : HubOp) (h : hub.wf = true) :
    ∃ s : EventHub × List Invocation, hubStep hub op = some s ∧ s.1.wf = true ∧
      s.1.channels.map Prod.fst =
        (if op.creates = false ∨ (chLookup op.channel hub.channels).isSome = true
         then hub.channels.map Prod.fst
         else hub.channels.map Prod.fst ++ [op.channel]) := by
  obtain ⟨hw, hnd, hent⟩ := (EventHub.wf_iff hub).1 h
  cases op with
  | sub c cb r =>
    refine ⟨_, rfl, ?_, ?_⟩
    · show (EventHub.mk (chSet c ((getOrCreate hub.channels c).1.subscribe cb r).state
        (getOrCreate hub.channels c).2)).wf = true
      apply (EventHub.wf_iff _).2
      refine ⟨?_, ?_, ?_⟩
      · exact chLookup_chSet_isSome _ _ _ _ (getOrCreate_isSome _ _ _ hw)
      · show ((chSet c ((getOrCreate hub.channels c).1.subscribe cb r).state
          (getOrCreate hub.channels c).2).map Prod.fst).Nodup
        rw [chSet_keys_of_isSome _ _ _ (by rw [chLookup_getOrCreate_self]; rfl)]
        exact getOrCreate_keys_nodup _ _ hnd
      · refine chSet_all _ c ((getOrCreate hub.channels c).1.subscribe cb r).state _
          (getOrCreate_all _ _ _ hent ⟨rfl, rfl⟩) ⟨?_, ?_⟩
        · rw [Channel.subscribe_state_name]
          exact (getOrCreate_fst_of_entries _ _ hent).1
        · exact Channel.subscribe_wf (getOrCreate hub.channels c).1 cb r
            (getOrCreate_fst_of_entries _ _ hent).2
    · show (chSet c ((getOrCreate hub.channels c).1.subscribe cb r).state
        (getOrCreate hub.channels c).2).map Prod.fst = _
      rw [chSet_keys_of_isSome _ _ _ (by rw [chLookup_getOrCreate_self]; rfl),
        getOrCreate_keys]
      by_cases hc : (chLookup c hub.channels).isSome = true <;>
        simp [hc, HubOp.creates, HubOp.channel]
  | unsub c id =>
    cases hl : chLookup c hub.channels with
    | none =>
      refine ⟨(hub, []), ?_, h, ?_⟩
      · show some (hub.unsub c id, []) = _
        unfold EventHub.unsub
        rw [hl]
      · simp [HubOp.creates]
    | some ch =>
      have hmem := chLookup_mem c ch hub.channels hl
      refine ⟨(⟨chSet c (ch.unsubscribe id) hub.channels⟩, []), ?_, ?_, ?_⟩
      · show some (hub.unsub c id, []) = _
        unfold EventHub.unsub
        rw [hl]
      · apply (EventHub.wf_iff _).2
        refine ⟨?_, ?_, ?_⟩
        · exact chLookup_chSet_isSome _ _ _ _ hw
        · show ((chSet c (ch.unsubscribe id) hub.channels).map Prod.fst).Nodup
          rw [chSet_keys_of_isSome _ _ _ (by rw [hl]; rfl)]
          exact hnd
        · apply chSet_all _ _ _ _ hent
          exact ⟨(Channel.unsubscribe_name ch id).trans (hent _ hmem).1,
            Channel.unsubscribe_wf _ _ (hent _ hmem).2⟩
      · show (chSet c (ch.unsubscribe id) hub.channels).map Prod.fst = _
        rw [chSet_keys_of_isSome _ _ _ (by rw [hl]; rfl)]
        simp [HubOp.creates]
  | last c =>
    refine ⟨_, rfl, ?_, ?_⟩
    · show (EventHub.mk (getOrCreate hub.channels c).2).wf = true
      apply (EventHub.wf_iff _).2
      exact ⟨getOrCreate_isSome _ _ _ hw, getOrCreate_keys_nodup _ _ hnd,
        getOrCreate_all _ _ _ hent ⟨rfl, rfl⟩⟩
    · show (getOrCreate hub.channels c).2.map Prod.fst = _
      rw [getOrCreate_keys]
      by_cases hc : (chLookup c hub.channels).isSome = true <;>
        simp [hc, HubOp.creates, HubOp.channel]
  | pub c v =>
    have hwm1 : (chLookup WildCardChannel
        (chSet c ((getOrCreate hub.channels c).1.publish v).state
          (getOrCreate hub.channels c).2)).isSome = true :=
      chLookup_chSet_isSome _ _ _ _ (getOrCreate_isSome _ _ _ hw)
    obtain ⟨w, hw1⟩ := Option.isSome_iff_exists.1 hwm1
    have hw2 : chLookup WildCardChannel
        (chSet WildCardChannel (w.publish v).state
          (chSet c ((getOrCreate hub.channels c).1.publish v).state
            (getOrCreate hub.channels c).2)) = some (w.publish v).state :=
      chLookup_chSet_self _ _ _
    have hpub := hubPublish_eq hub c v w (w.publish v).state hw1 hw2
    have hentm1 : ∀ p ∈ chSet c ((getOrCreate hub.channels c).1.publish v).state
        (getOrCreate hub.channels c).2, p.2.name = p.1 ∧ p.2.wf = true := by
      apply chSet_all _ _ _ _ (getOrCreate_all _ _ _ hent ⟨rfl, rfl⟩)
      constructor
      · rw [Channel.publish_state_name]
        exact (getOrCreate_fst_of_entries _ _ hent).1
      · exact Channel.publish_wf _ _ (getOrCreate_fst_of_entries _ _ hent).2
    have hwprop := hentm1 _ (chLookup_mem _ _ _ hw1)
    refine ⟨(⟨chSet WildCardChannel (((w.publish v).state).publish v).state
        (chSet WildCardChannel (w.publish v).state
          (chSet c ((getOrCreate hub.channels c).1.publish v).state
            (getOrCreate hub.channels c).2))⟩,
      ((getOrCreate hub.channels c).1.publish v).trace ++
        ((w.publish v).trace ++ (((w.publish v).state).publish v).trace)), ?_, ?_, ?_⟩
    · show (match hub.publish c v with
        | some r => some (r.hub, r.trace)
        | none => none) = some _
      rw [hpub]
    · apply (EventHub.wf_iff _).2
      refine ⟨?_, ?_, ?_⟩
      · rw [chLookup_chSet_self]
        rfl
      · show ((chSet WildCardChannel (((w.publish v).state).publish v).state
          (chSet WildCardChannel (w.publish v).state
            (chSet c ((getOrCreate hub.channels c).1.publish v).state
              (getOrCreate hub.channels c).2))).map Prod.fst).Nodup
        rw [chSet_keys_of_isSome _ _ _ (by rw [chLookup_chSet_self]; rfl),
          chSet_keys_of_isSome _ _ _ (by rw [hw1]; rfl),
          chSet_keys_of_isSome _ _ _ (by rw [chLookup_getOrCreate_self]; rfl)]
        exact getOrCreate_keys_nodup _ _ hnd
      · refine chSet_all _ WildCardChannel (((w.publish v).state).publish v).state _
          (chSet_all _ WildCardChannel (w.publish v).state _ hentm1
            ⟨(Channel.publish_state_name w v).trans hwprop.1,
              Channel.publish_wf _ _ hwprop.2⟩)
          ⟨?_, ?_⟩
        · rw [Channel.publish_state_name, Channel.publish_state_name]
          exact hwprop.1
        · exact Channel.publish_wf _ _ (Channel.publish_wf _ _ hwprop.2)
    · show ((chSet WildCardChannel (((w.publish v).state).publish v).state
        (chSet WildCardChannel (w.publish v).state
          (chSet c ((getOrCreate hub.channels c).1.publish v).state
            (getOrCreate hub.channels c).2))).map Prod.fst) = _
      rw [chSet_keys_of_isSome _ _ _ (by rw [chLookup_chSet_self]; rfl),
        chSet_keys_of_isSome _ _ _ (by rw [hw1]; rfl),
        chSet_keys_of_isSome _ _ _ (by rw [chLookup_getOrCreate_self]; rfl),
        getOrCreate_keys]
      by_cases hc : (chLookup c hub.channels).isSome = true <;>
        simp [hc, HubOp.creates, HubOp.channel]

theorem Channel.publish_trace (st : Channel) (v : Val) :
    (st.publish v).trace =
      st.callbacks.map (fun p => (⟨p.1, p.2, ⟨st.name, v⟩⟩ : Invocation)) := rfl

theorem getOrCreate_idem (m : List (String × Channel)) (k : String) :
    getOrCreate (getOrCreate m k).2 k = getOrCreate m k := by
  conv_lhs => rw [getOrCreate]
  rw [chLookup_getOrCreate_self]

theorem natDelete_of_not_mem (id : Nat) : ∀ l : List (Nat × Nat),
    id ∉ l.map Prod.fst → natDelete id l = l
  | [], _ => rfl
  | (k', v') :: rest, h => by
    rw [List.map_cons, List.mem_cons] at h
    push_neg at h
    rw [natDelete, if_neg (fun hk => h.1 hk.symm), natDelete_of_not_mem id rest h.2]

theorem natDelete_length (id : Nat) : ∀ l : List (Nat × Nat),
    (l.map Prod.fst).Nodup → id ∈ l.map Prod.fst →
      (natDelete id l).length + 1 = l.length
  | [], _, hm => by simp at hm
  | (k', v') :: rest, hnd, hm => by
    rw [List.map_cons, List.nodup_cons] at hnd
    rw [natDelete]
    by_cases h : k' = id
    · rw [if_pos h]
      subst h
      rw [natDelete_of_not_mem k' rest hnd.1]
      rfl
    · rw [List.map_cons, List.mem_cons] at hm
      rcases hm with hm | hm
      · exact absurd hm.symm h
      · rw [if_neg h, List.length_cons, List.length_cons,
          ← natDelete_length id rest hnd.2 hm]

theorem trace_natDelete (name : String) (v : Val) (id : Nat) :
    ∀ l : List (Nat × Nat),
      (natDelete id l).map (fun p => (⟨p.1, p.2, ⟨name, v⟩⟩ : Invocation)) =
        (l.map (fun p => (⟨p.1, p.2, ⟨name, v⟩⟩ : Invocation))).filter
          (fun inv => inv.id ≠ id)
  | [] => rfl
  | (k', v') :: rest => by
    rw [natDelete, List.map_cons, List.filter_cons]
    by_cases h : k' = id
    · rw [if_pos h]
      have : (decide (¬(⟨k', v', ⟨name, v⟩⟩ : Invocation).id = id)) = false := by
        simp [h]
      rw [this]
      exact trace_natDelete name v id rest
    · have : (decide (¬(⟨k', v', ⟨name, v⟩⟩ : Invocation).id = id)) = true := by
        simp [h]
      rw [if_neg h, List.map_cons, this]
      rw [trace_natDelete name v id rest]
      rfl

theorem fanOutExc_split (thr : Nat → Bool) (name : String) (data : Val)
    (i cbt : Nat) (post : List (Nat × Nat)) (hthr : thr cbt = true) :
    ∀ pre : List (Nat × Nat), (∀ p ∈ pre, thr p.2 = false) →
      fanOutExc thr name data (pre ++ (i, cbt) :: post) =
        (pre.map (fun p => (⟨p.1, p.2, ⟨name, data⟩⟩ : Invocation)) ++
          [⟨i, cbt, ⟨name, data⟩⟩], true)
  | [], _ => by
    rw [List.nil_append, fanOutExc]
    rw [if_pos hthr]
    rfl
  | p :: pre, h => by
    rw [List.cons_append, fanOutExc]
    rw [if_neg (by rw [h p (List.mem_cons_self _ _)]; simp)]
    rw [fanOutExc_split thr name data i cbt post hthr pre
      (fun q hq => h q (List.mem_cons_of_mem _ hq))]
    rfl

theorem Channel.publishExc_spell (thr : Nat → Bool) (st : Channel) (data : Val) :
    st.publishExc thr data =
      ⟨{st with lastEvent := some data}, (fanOutExc thr st.name data st.callbacks).1,
        (fanOutExc thr st.name data st.callbacks).2⟩ := rfl

theorem lastPub_eq_none_iff (ops : List ChOp) : lastPub ops = none ↔ pubsOf ops = [] := by
  induction ops with
  | nil => simp [lastPub, pubsOf]
  | cons op rest ih =>
    simp only [lastPub, pubsOf, List.filterMap_cons] at ih ⊢
    cases hrest : lastPub rest with
    | some w =>
      rw [hrest] at ih
      simp only [reduceCtorEq, false_iff] at ih
      cases op <;> simp [ih]
    | none =>
      rw [hrest] at ih
      simp only [true_iff] at ih
      cases op <;> simp [ih, pubsOf]

/-! ## Claim theorems -/

/-- C1 (counterevidence, code bug): the claim states that each
`EventHub.publish` calls the wildcard channel's `publish` exactly once, so
a wildcard subscriber observes each published value exactly once.  On the
code this fails: `EventHub.publish` contains the statement
`this._channels[WildCardChannel].publish(data)` twice on consecutive
lines, so after `subscribe("*", cb)` on a fresh hub a single
`publish("orders", 42)` invokes the wildcard subscriber twice with the
same envelope. -/
theorem hub_publish_invokes_wildcard_twice :
    ((EventHub.new.subscribe WildCardChannel 5 false).hub.publish "orders"
        (Val.vNum 42)).map HubPubResult.trace =
      some [⟨1, 5, ⟨WildCardChannel, Val.vNum 42⟩⟩,
        ⟨1, 5, ⟨WildCardChannel, Val.vNum 42⟩⟩] := by decide

/-- C2 (counterevidence, code bug): the claim states that after at least
one publish on a channel, `subscribe(cb, replay=true)` invokes `cb`
exactly once with the most recently published value.  On the code this
fails for falsy retained values: after `publish(false)` on a boolean
channel the replay guard `if (replay && lastEvent)` treats the retained
`false` as absent and `cb` is never invoked, contradicting the method's
own documentation ("calls the callback with the last event, if one
exists"). -/
theorem replay_skips_falsy_last_value :
    pubsOf [ChOp.pub (Val.vBool false)] ≠ [] ∧
      ((runCh (Channel.new "test") [ChOp.pub (Val.vBool false)]).1.subscribe 7
          true).replayed = [] := by decide

/-- C3: after every sequence of subscribe/unsubscribe/publish operations
on a channel built by the constructor, the callback record's keys are
unique and strictly less than the current value of the `nextId` counter
(the id the next `getNextId()` call returns, `_lastId + 1`), and the
retained `_lastEvent` is set iff the sequence contains at least one
publish. -/
theorem channel_invariant_keys_lastEvent (name : String) (ops : List ChOp) :
    ((runCh (Channel.new name) ops).1.callbacks.map Prod.fst).Nodup ∧
      (∀ p ∈ (runCh (Channel.new name) ops).1.callbacks,
        p.1 < (runCh (Channel.new name) ops).1.lastId + 1) ∧
      ((runCh (Channel.new name) ops).1.lastEvent ≠ none ↔ pubsOf ops ≠ []) := by
  have hwf := runCh_wf (Channel.new name) ops rfl
  rw [Channel.wf_spell] at hwf
  obtain ⟨h1, h2⟩ := hwf
  refine ⟨h1.imp (fun hab => ne_of_lt hab), fun p hp => Nat.lt_succ_of_le (h2 p hp).2, ?_⟩
  rw [runCh_lastEvent]
  cases hlp : lastPub ops with
  | some w =>
    simp only [ne_eq, reduceCtorEq, not_false_iff, true_iff]
    intro hpubs
    rw [← lastPub_eq_none_iff] at hpubs
    rw [hpubs] at hlp
    exact absurd hlp (by simp)
  | none =>
    have : pubsOf ops = [] := (lastPub_eq_none_iff ops).1 hlp
    simp [this, Channel.new]

/-- C4: a publish on any reachable channel state invokes exactly the
currently registered callbacks, in ascending subscription-identifier
order (the record's keys are strictly ascending, and the fan-out trace is
the key-ordered callback list mapped to invocations), and this survives
intermediate unsubscribes, as in the concrete scenario: ids 1, 2, 3
registered, id 2 unsubscribed, publish invokes ids 1 and 3 in order. -/
theorem publish_order_ascending_ids (name : String) (ops : List ChOp) (v : Val) :
    List.Pairwise (· < ·)
        ((runCh (Channel.new name) ops).1.callbacks.map Prod.fst) ∧
      ((runCh (Channel.new name) ops).1.publish v).trace =
        (runCh (Channel.new name) ops).1.callbacks.map
          (fun p => (⟨p.1, p.2, ⟨name, v⟩⟩ : Invocation)) ∧
      (runCh (Channel.new "c")
          [ChOp.sub 10 false, ChOp.sub 11 false, ChOp.sub 12 false, ChOp.unsub 2,
            ChOp.pub (Val.vNum 7)]).2 =
        [⟨1, 10, ⟨"c", Val.vNum 7⟩⟩, ⟨3, 12, ⟨"c", Val.vNum 7⟩⟩] := by
  refine ⟨?_, ?_, by decide⟩
  · have hwf := runCh_wf (Channel.new name) ops rfl
    exact ((Channel.wf_spell _).1 hwf).1
  · rw [Channel.publish_trace, runCh_name]
    rfl

/-- C5: on any reachable channel state, the next subscribe call returns
the identifier `(number of subscribe calls so far) + 1`: the first
subscription gets id 1, the Nth (counting arrivals, regardless of
unsubscribes) gets N, so identifiers are strictly increasing and never
reused. -/
theorem subscription_ids_sequential (name : String) (ops : List ChOp) (cb : Nat) (r : Bool) :
    ((runCh (Channel.new name) ops).1.subscribe cb r).subId = subCount ops + 1 ∧
      (runCh (Channel.new name) ops).1.lastId = subCount ops := by
  have h := runCh_lastId (Channel.new name) ops
  rw [show (Channel.new name).lastId = 0 from rfl, Nat.zero_add] at h
  exact ⟨by rw [Channel.subscribe_subId, h], h⟩

/-- C7: the channel retains the most recently published value: after any
operation sequence whose last publish carried `v`, `lastEvent` is `v`
regardless of earlier publishes; a fresh channel has no retained value
and zero subscribers; the Hub's `lastEvent` on a not-yet-created channel
name returns none; and the Hub's `lastEvent` read is stable — reading
again returns the same value and leaves the hub unchanged. -/
theorem lastEvent_last_write_wins :
    (∀ (name : String) (ops : List ChOp) (v : Val), lastPub ops = some v →
        ((runCh (Channel.new name) ops).1).lastEvent = some v) ∧
      (∀ name : String, (Channel.new name).lastEvent = none ∧
        (Channel.new name).callbacks.length = 0) ∧
      (∀ (hub : EventHub) (c : String), chLookup c hub.channels = none →
        (hub.last c).1 = none) ∧
      (∀ (hub : EventHub) (c : String),
        ((hub.last c).2).last c = ((hub.last c).1, (hub.last c).2)) := by
  refine ⟨?_, fun name => ⟨rfl, rfl⟩, ?_, ?_⟩
  · intro name ops v hv
    rw [runCh_lastEvent, hv]
  · intro hub c hnone
    show (getOrCreate hub.channels c).1.lastEvent = none
    unfold getOrCreate
    rw [hnone]
    rfl
  · intro hub c
    show ((getOrCreate (getOrCreate hub.channels c).2 c).1.lastEvent,
        (⟨(getOrCreate (getOrCreate hub.channels c).2 c).2⟩ : EventHub)) = _
    rw [getOrCreate_idem]
    rfl

/-- C7 witness: after publishing 1 then 2 on a fresh channel, the most
recent publish carried 2 and `lastEvent` returns 2. -/
theorem lastEvent_last_write_wins_witness :
    lastPub [ChOp.pub (Val.vNum 1), ChOp.pub (Val.vNum 2)] = some (Val.vNum 2) ∧
      ((runCh (Channel.new "k")
          [ChOp.pub (Val.vNum 1), ChOp.pub (Val.vNum 2)]).1).lastEvent =
        some (Val.vNum 2) :=
  ⟨by decide, lastEvent_last_write_wins.1 "k" _ _ (by decide)⟩

/-- C6: a fresh hub holds exactly the pre-inserted wildcard channel; on
any well-formed hub every operation succeeds and leaves the channel-name
list unchanged — except a subscribe, publish or lastEvent naming a
not-yet-present channel, which appends exactly that one name — so a
channel entry is created exactly once, on first use (including the
`lastEvent` read), repeated operations add nothing, and no operation
(unsubscribe included) ever removes a channel.  Well-formedness is also
preserved, so this holds along every reachable operation sequence. -/
theorem hub_channel_creation_once (hub : EventHub) (op : HubOp) (h : hub.wf = true) :
    EventHub.new.channels.map Prod.fst = [WildCardChannel] ∧
      ∃ s : EventHub × List Invocation, hubStep hub op = some s ∧ s.1.wf = true ∧
        s.1.channels.map Prod.fst =
          (if op.creates = false ∨ (chLookup op.channel hub.channels).isSome = true
           then hub.channels.map Prod.fst
           else hub.channels.map Prod.fst ++ [op.channel]) :=
  ⟨rfl, hubStep_keys_wf hub op h⟩

/-- C6 witness: on the fresh hub, the pure read `lastEvent("fresh")`
succeeds and appends exactly the channel name "fresh". -/
theorem hub_channel_creation_once_witness :
    EventHub.new.wf = true ∧
      (EventHub.new.channels.map Prod.fst = [WildCardChannel] ∧
        ∃ s : EventHub × List Invocation,
          hubStep EventHub.new (HubOp.last "fresh") = some s ∧ s.1.wf = true ∧
            s.1.channels.map Prod.fst =
              (if (HubOp.last "fresh").creates = false ∨
                  (chLookup (HubOp.last "fresh").channel EventHub.new.channels).isSome = true
               then EventHub.new.channels.map Prod.fst
               else EventHub.new.channels.map Prod.fst ++ [(HubOp.last "fresh").channel])) :=
  ⟨by decide, hub_channel_creation_once EventHub.new (HubOp.last "fresh") (by decide)⟩

/-- C8: an unsubscribe removes exactly the entry registered under the
handle's identifier and nothing else: the id is gone from the record,
every other id maps unchanged, name, retained value and id counter are
untouched, a subsequent publish performs exactly the old fan-out minus
that id, removing exactly one entry when the id was present in a
well-formed record, a second identical unsubscribe is a no-op, and an
unsubscribe never changes the Hub's channel-name list. -/
theorem unsubscribe_frame (st : Channel) (id : Nat) (v : Val) (hub : EventHub) (c : String) :
    natLookup id (st.unsubscribe id).callbacks = none ∧
      (∀ k, k ≠ id → natLookup k (st.unsubscribe id).callbacks = natLookup k st.callbacks) ∧
      (st.unsubscribe id).name = st.name ∧
      (st.unsubscribe id).lastEvent = st.lastEvent ∧
      (st.unsubscribe id).lastId = st.lastId ∧
      (st.unsubscribe id).unsubscribe id = st.unsubscribe id ∧
      ((st.unsubscribe id).publish v).trace =
        (st.publish v).trace.filter (fun inv => inv.id ≠ id) ∧
      (st.wf = true → id ∈ st.callbacks.map Prod.fst →
        (st.unsubscribe id).callbacks.length + 1 = st.callbacks.length) ∧
      (hub.unsub c id).channels.map Prod.fst = hub.channels.map Prod.fst := by
  refine ⟨natLookup_natDelete_self id st.callbacks,
    fun k hk => natLookup_natDelete_ne id k hk st.callbacks, rfl, rfl, rfl, ?_, ?_, ?_, ?_⟩
  · show ({st with callbacks := natDelete id (natDelete id st.callbacks)} : Channel) =
      {st with callbacks := natDelete id st.callbacks}
    rw [natDelete_idem]
  · rw [Channel.publish_trace, Channel.publish_trace]
    exact trace_natDelete st.name v id st.callbacks
  · intro hwf hmem
    have hnd : ((st.callbacks.map Prod.fst).Nodup) :=
      ((Channel.wf_spell st).1 hwf).1.imp (fun hab => ne_of_lt hab)
    exact natDelete_length id st.callbacks hnd hmem
  · unfold EventHub.unsub
    cases hl : chLookup c hub.channels with
    | some ch => exact chSet_keys_of_isSome c (ch.unsubscribe id) hub.channels (by rw [hl]; rfl)
    | none => rfl

/-- C8 witness: on the channel with subscribers 1, 2, 3, unsubscribing
id 2 removes exactly one entry. -/
theorem unsubscribe_frame_witness :
    ((runCh (Channel.new "w") [ChOp.sub 10 false, ChOp.sub 11 false,
        ChOp.sub 12 false]).1).wf = true ∧
      2 ∈ ((runCh (Channel.new "w") [ChOp.sub 10 false, ChOp.sub 11 false,
        ChOp.sub 12 false]).1).callbacks.map Prod.fst ∧
      (((runCh (Channel.new "w") [ChOp.sub 10 false, ChOp.sub 11 false,
          ChOp.sub 12 false]).1).unsubscribe 2).callbacks.length + 1 =
        ((runCh (Channel.new "w") [ChOp.sub 10 false, ChOp.sub 11 false,
          ChOp.sub 12 false]).1).callbacks.length :=
  ⟨by decide, by decide,
    (unsubscribe_frame _ 2 (Val.vNum 0) EventHub.new "x").2.2.2.2.2.2.2.1 (by decide) (by decide)⟩

/-- C9: for any publish through a well-formed hub, the delivery trace
splits into the named channel's fan-out followed by the wildcard
deliveries; every envelope delivered to a subscriber of the named
channel carries that channel's name, and every envelope delivered to a
wildcard subscriber carries the wildcard channel's own name "*", not the
originating channel name. -/
theorem wildcard_envelope_channel_star (hub : EventHub) (c : String) (v : Val)
    (h : hub.wf = true) :
    ∃ r : HubPubResult, ∃ t2 : List Invocation, hub.publish c v = some r ∧
      r.trace = ((getOrCreate hub.channels c).1.publish v).trace ++ t2 ∧
      (∀ inv ∈ ((getOrCreate hub.channels c).1.publish v).trace,
        inv.msg.channel = c) ∧
      (∀ inv ∈ t2, inv.msg.channel = WildCardChannel) := by
  obtain ⟨hw, hnd, hent⟩ := (EventHub.wf_iff hub).1 h
  have hwm1 : (chLookup WildCardChannel
      (chSet c ((getOrCreate hub.channels c).1.publish v).state
        (getOrCreate hub.channels c).2)).isSome = true :=
    chLookup_chSet_isSome _ _ _ _ (getOrCreate_isSome _ _ _ hw)
  obtain ⟨w, hw1⟩ := Option.isSome_iff_exists.1 hwm1
  have hw2 : chLookup WildCardChannel
      (chSet WildCardChannel (w.publish v).state
        (chSet c ((getOrCreate hub.channels c).1.publish v).state
          (getOrCreate hub.channels c).2)) = some (w.publish v).state :=
    chLookup_chSet_self _ _ _
  have hpub := hubPublish_eq hub c v w (w.publish v).state hw1 hw2
  have hentm1 : ∀ p ∈ chSet c ((getOrCreate hub.channels c).1.publish v).state
      (getOrCreate hub.channels c).2, p.2.name = p.1 ∧ p.2.wf = true := by
    refine chSet_all _ c ((getOrCreate hub.channels c).1.publish v).state _
      (getOrCreate_all _ _ _ hent ⟨rfl, rfl⟩) ⟨?_, ?_⟩
    · rw [Channel.publish_state_name]
      exact (getOrCreate_fst_of_entries _ _ hent).1
    · exact Channel.publish_wf _ _ (getOrCreate_fst_of_entries _ _ hent).2
  have hwprop := hentm1 _ (chLookup_mem _ _ _ hw1)
  refine ⟨_, (w.publish v).trace ++ (((w.publish v).state).publish v).trace,
    hpub, rfl, ?_, ?_⟩
  · intro inv hinv
    rw [Channel.publish_trace] at hinv
    obtain ⟨p, hp, rfl⟩ := List.mem_map.1 hinv
    show (getOrCreate hub.channels c).1.name = c
    exact (getOrCreate_fst_of_entries _ _ hent).1
  · intro inv hinv
    rcases List.mem_append.1 hinv with hinv | hinv
    · rw [Channel.publish_trace] at hinv
      obtain ⟨p, hp, rfl⟩ := List.mem_map.1 hinv
      exact hwprop.1
    · rw [Channel.publish_trace] at hinv
      obtain ⟨p, hp, rfl⟩ := List.mem_map.1 hinv
      show ((w.publish v).state).name = WildCardChannel
      rw [Channel.publish_state_name]
      exact hwprop.1

/-- C9 witness: on the fresh hub with one wildcard subscriber,
publishing 42 to "orders" yields a trace whose named part carries
"orders" and whose wildcard part carries "*". -/
theorem wildcard_envelope_channel_star_witness :
    (EventHub.new.subscribe WildCardChannel 5 false).hub.wf = true ∧
      (∃ r : HubPubResult, ∃ t2 : List Invocation,
        (EventHub.new.subscribe WildCardChannel 5 false).hub.publish "orders"
            (Val.vNum 42) = some r ∧
          r.trace = ((getOrCreate
              (EventHub.new.subscribe WildCardChannel 5 false).hub.channels
              "orders").1.publish (Val.vNum 42)).trace ++ t2 ∧
          (∀ inv ∈ ((getOrCreate
              (EventHub.new.subscribe WildCardChannel 5 false).hub.channels
              "orders").1.publish (Val.vNum 42)).trace,
            inv.msg.channel = "orders") ∧
          (∀ inv ∈ t2, inv.msg.channel = WildCardChannel)) :=
  ⟨by decide, wildcard_envelope_channel_star _ "orders" (Val.vNum 42) (by decide)⟩

/-- C10: when a subscriber callback throws during a publish, the
exception escapes `publish` and the callbacks after the throwing one in
fan-out order are not invoked; `_lastEvent` was assigned before the
fan-out loop, so the channel retains the value whose delivery was
aborted. -/
theorem publish_callback_throw_aborts (thr : Nat → Bool) (st : Channel) (data : Val)
    (i cbt : Nat) (pre post : List (Nat × Nat))
    (hsplit : st.callbacks = pre ++ (i, cbt) :: post)
    (hpre : ∀ p ∈ pre, thr p.2 = false) (hthr : thr cbt = true) :
    (st.publishExc thr data).threw = true ∧
      (st.publishExc thr data).state.lastEvent = some data ∧
      (st.publishExc thr data).trace =
        pre.map (fun p => (⟨p.1, p.2, ⟨st.name, data⟩⟩ : Invocation)) ++
          [⟨i, cbt, ⟨st.name, data⟩⟩] := by
  rw [Channel.publishExc_spell, hsplit,
    fanOutExc_split thr st.name data i cbt post hthr pre hpre]
  exact ⟨rfl, rfl, rfl⟩

/-- C10 witness: with subscribers (1,5), (2,99), (3,7) and callback 99
throwing, the publish throws, still records the value, and invokes only
ids 1 and 2. -/
theorem publish_callback_throw_aborts_witness :
    ((runCh (Channel.new "e") [ChOp.sub 5 false, ChOp.sub 99 false,
        ChOp.sub 7 false]).1).callbacks = [(1, 5)] ++ (2, 99) :: [(3, 7)] ∧
      (∀ p ∈ [((1 : Nat), (5 : Nat))], (fun n => n == 99) p.2 = false) ∧
      ((fun n => n == 99) 99 = true) ∧
      (((runCh (Channel.new "e") [ChOp.sub 5 false, ChOp.sub 99 false,
          ChOp.sub 7 false]).1).publishExc (fun n => n == 99) (Val.vStr "x")).threw = true ∧
      (((runCh (Channel.new "e") [ChOp.sub 5 false, ChOp.sub 99 false,
          ChOp.sub 7 false]).1).publishExc (fun n => n == 99) (Val.vStr "x")).state.lastEvent =
        some (Val.vStr "x") ∧
      (((runCh (Channel.new "e") [ChOp.sub 5 false, ChOp.sub 99 false,
          ChOp.sub 7 false]).1).publishExc (fun n => n == 99) (Val.vStr "x")).trace =
        [((1 : Nat), (5 : Nat))].map
            (fun p => (⟨p.1, p.2, ⟨((runCh (Channel.new "e") [ChOp.sub 5 false,
              ChOp.sub 99 false, ChOp.sub 7 false]).1).name, Val.vStr "x"⟩⟩ : Invocation)) ++
          [⟨2, 99, ⟨((runCh (Channel.new "e") [ChOp.sub 5 false, ChOp.sub 99 false,
            ChOp.sub 7 false]).1).name, Val.vStr "x"⟩⟩] :=
  ⟨by decide, by decide, by decide,
    publish_callback_throw_aborts (fun n => n == 99) _ (Val.vStr "x") 2 99 [(1, 5)] [(3, 7)]
      (by decide) (by decide) (by decide)⟩

end EFFE
